import Mathlib

/-!
Verification of the kitties pallet (`src/pallets/kitties/src/lib.rs`).

The development shallowly embeds the pallet's state and extrinsics:
bytes and balances are natural numbers, the `Kitties` storage map is an
association list, `KittiesOwned` and the currency ledger are functions
from account ids, and each extrinsic is a function from a state to
`Except KErr KState`, mirroring the source's check order.
-/

set_option maxHeartbeats 1000000

namespace KittiesPallet

/-- Bitwise crossover of a single byte, from `breed_kitty` line 162:
`dna[i] = (kitty_1.dna[i] & selector[i]) | (kitty_2.dna[i] & !selector[i])`.
Bytes are naturals below 256, and `!m` on a `u8` is `255 ^^^ m`. -/
def combineByte (x y m : Nat) : Nat := (x &&& m) ||| (y &&& (255 ^^^ m))

/-- Pointwise combination of three lists, truncating at the shortest. -/
def zipWith3 (f : α → β → γ → δ) : List α → List β → List γ → List δ
  | x :: xs, y :: ys, z :: zs => f x y z :: zipWith3 f xs ys zs
  | _, _, _ => []

/-- The Crossover Engine: the `for i in 0..dna.len()` loop of `breed_kitty`
(lines 160-163), combining the two parent codes byte by byte under the
selector mask. -/
def combine (a b sel : List Nat) : List Nat := zipWith3 combineByte a b sel

/-- Byte-wise complement of a selector (`!s` applied to every byte). -/
def bnotBytes (s : List Nat) : List Nat := s.map (fun m => 255 ^^^ m)

lemma xor255_xor255 (m : Nat) : 255 ^^^ (255 ^^^ m) = m := by
  rw [← Nat.xor_assoc, Nat.xor_self, Nat.zero_xor]

lemma combineByte_swap (x y m : Nat) :
    combineByte x y m = combineByte y x (255 ^^^ m) := by
  unfold combineByte
  rw [xor255_xor255, Nat.lor_comm]

/-- C8: the crossover is commutative in parent order up to complementing the
selector: `combine a b s = combine b a (NOT s)` byte-wise. -/
theorem C8_combine_comm (a b s : List Nat) :
    combine a b s = combine b a (bnotBytes s) := by
  induction a generalizing b s with
  | nil => cases b <;> cases s <;> rfl
  | cons x xs ih =>
    cases b with
    | nil => cases s <;> rfl
    | cons y ys =>
      cases s with
      | nil => rfl
      | cons m ms =>
        show combineByte x y m :: combine xs ys ms =
          combineByte y x (255 ^^^ m) :: combine ys xs (bnotBytes ms)
        rw [combineByte_swap, ih ys ms]

/-- C2 as stated is false: with parent bytes `1` and `2` and selector byte `1`,
the child byte is `(1 &&& 1) ||| (2 &&& 254) = 3`, equal to neither parent's
byte. -/
theorem C2_counterexample :
    ¬ (∀ i, i < 16 →
      (combine (List.replicate 16 1) (List.replicate 16 2)
          (List.replicate 16 1)).getD i 0
        = (List.replicate 16 1).getD i 0 ∨
      (combine (List.replicate 16 1) (List.replicate 16 2)
          (List.replicate 16 1)).getD i 0
        = (List.replicate 16 2).getD i 0) := by
  decide

lemma combine_getD (a b s : List Nat) (i : Nat)
    (ha : i < a.length) (hb : i < b.length) (hs : i < s.length) :
    (combine a b s).getD i 0
      = combineByte (a.getD i 0) (b.getD i 0) (s.getD i 0) := by
  induction a generalizing b s i with
  | nil => simp at ha
  | cons x xs ih =>
    cases b with
    | nil => simp at hb
    | cons y ys =>
      cases s with
      | nil => simp at hs
      | cons m ms =>
        cases i with
        | zero => rfl
        | succ n =>
          show (combine xs ys ms).getD n 0 = _
          exact ih ys ms n (Nat.lt_of_succ_lt_succ ha)
            (Nat.lt_of_succ_lt_succ hb) (Nat.lt_of_succ_lt_succ hs)

lemma testBit_255 (j : Nat) (hj : j < 8) : (255 : Nat).testBit j = true := by
  interval_cases j <;> decide

lemma combineByte_testBit (x y m j : Nat) (hj : j < 8) :
    (combineByte x y m).testBit j
      = if m.testBit j then x.testBit j else y.testBit j := by
  unfold combineByte
  rw [Nat.testBit_lor, Nat.testBit_land, Nat.testBit_land, Nat.testBit_xor,
    testBit_255 j hj]
  cases hm : m.testBit j <;> simp [hm]

/-- C2 amended: for 16-byte parent codes and selector, every **bit** of the
child code equals the corresponding bit of parent `a` or of parent `b`
(bitwise, not byte-wise, selection). -/
theorem C2_amended (a b s : List Nat)
    (la : a.length = 16) (lb : b.length = 16) (ls : s.length = 16) :
    ∀ i, i < 16 → ∀ j, j < 8 →
      ((combine a b s).getD i 0).testBit j = (a.getD i 0).testBit j ∨
      ((combine a b s).getD i 0).testBit j = (b.getD i 0).testBit j := by
  intro i hi j hj
  rw [combine_getD a b s i (la ▸ hi) (lb ▸ hi) (ls ▸ hi),
    combineByte_testBit _ _ _ _ hj]
  cases hm : (s.getD i 0).testBit j <;> simp

/-- Witness for `C2_amended` at concrete 16-byte inputs, byte 0, bit 0. -/
theorem C2_amended_witness :
    ((combine (List.replicate 16 1) (List.replicate 16 2)
        (List.replicate 16 1)).getD 0 0).testBit 0
      = ((List.replicate 16 1).getD 0 0).testBit 0 ∨
    ((combine (List.replicate 16 1) (List.replicate 16 2)
        (List.replicate 16 1)).getD 0 0).testBit 0
      = ((List.replicate 16 2).getD 0 0).testBit 0 :=
  C2_amended (List.replicate 16 1) (List.replicate 16 2)
    (List.replicate 16 1) (by simp) (by simp) (by simp) 0 (by decide)
    0 (by decide)

/-! State model of the pallet storage and its currency ledger. -/

/-- The `Kitty<T>` struct (lines 24-28): dna, price and owner. Accounts are
naturals (`u64` account ids in the mock), balances are naturals. -/
structure Kitty where
  dna : List Nat
  price : Nat
  owner : Nat
deriving DecidableEq, Repr

/-- Runtime configuration constants: `KittyPrice`, `MaxKittiesOwned` and
`MaxKittiesCount` (lines 40-47). -/
structure Config where
  kittyPrice : Nat
  maxKittiesOwned : Nat
  maxKittiesCount : Nat
deriving DecidableEq, Repr

/-- Pallet storage (lines 50-66) together with the reservable-currency
ledger it calls into: `kitties` is the `Kitties` map as an association
list keyed by dna, `kittiesOwned` the per-account owned list
(`ValueQuery`, so absent accounts read as `[]`), `kittiesCount` the
`KittiesCount` counter, and `reserved`/`free` the per-account ledger
balances. -/
structure KState where
  kitties : List (List Nat × Kitty)
  kittiesOwned : Nat → List (List Nat)
  kittiesCount : Nat
  reserved : Nat → Nat
  free : Nat → Nat

/-- The `Error<T>` enum (lines 83-103). -/
inductive KErr where
  | NotEnoughBalance
  | ExceedMaxKittiesOwned
  | SameKitties
  | KittiesCountOverFlow
  | KittyNotExists
  | NotOwner
  | TransferToSelf
  | BidPriceTooLow
  | NotForSale
deriving DecidableEq, Repr

/-- Association-list read, the model of `Kitties::<T>::get`. -/
def kget : List (List Nat × Kitty) → List Nat → Option Kitty
  | [], _ => none
  | (k, v) :: t, d => if k = d then some v else kget t d

/-- Association-list write, the model of `Kitties::<T>::insert`: the new
binding shadows and replaces any binding of the same key. -/
def kinsert (d : List Nat) (k : Kitty) (l : List (List Nat × Kitty)) :
    List (List Nat × Kitty) :=
  (d, k) :: l.filter (fun p => ¬ p.1 = d)

/-- Pointwise function update, the model of a storage-map `insert` on the
function-valued maps (`KittiesOwned` and the ledger balances). -/
def fupd (f : Nat → α) (a : Nat) (v : α) : Nat → α :=
  fun x => if x = a then v else f x

/-- The ledger's `can_reserve`: the amount fits in the free balance. -/
def can_reserve (s : KState) (a : Nat) (p : Nat) : Prop := p ≤ s.free a

instance (s : KState) (a p : Nat) : Decidable (can_reserve s a p) :=
  inferInstanceAs (Decidable (p ≤ s.free a))

/-- `Iterator::position`: index of the first element equal to `d`. -/
def position (d : List Nat) : List (List Nat) → Option Nat
  | [] => none
  | x :: xs => if x = d then some 0 else (position d xs).map (· + 1)

/-- `Vec::swap_remove i`: overwrite index `i` with the last element, then
drop the last element. -/
def swapRemove (l : List (List Nat)) (i : Nat) : List (List Nat) :=
  match l.getLast? with
  | none => []
  | some x => (l.set i x).dropLast

/-- The sender-side removal in `transfer_kitty`/`do_buy_kitty`
(lines 202-207, 276-280): find the first position of `dna` in the owned
list and `swap_remove` it, or report absence. -/
def removeKitty (l : List (List Nat)) (d : List Nat) : Option (List (List Nat)) :=
  (position d l).map (swapRemove l)

/-! The five extrinsics, in the source's check and write order.  Each is a
function to `Except KErr KState`: the host dispatches every extrinsic
transactionally, so an error reverts all storage writes and only the
returned error is observable (for `transfer_kitty`, whose body writes to
the ledger before its last fallible check, the raw write order is kept in
`transfer_kitty_raw` and the host rollback applied on top). -/

/-- `create_kitty` (lines 108-133), with the generated dna passed in for
the call to `gen_random_value`. -/
def create_kitty (cfg : Config) (owner : Nat) (dna : List Nat) (s : KState) :
    Except KErr KState :=
  let price := cfg.kittyPrice
  if ¬ can_reserve s owner price then .error .NotEnoughBalance
  else
    let count := s.kittiesCount + 1
    if 2 ^ 32 ≤ count then .error .KittiesCountOverFlow
    else if ¬ count ≤ cfg.maxKittiesCount then .error .KittiesCountOverFlow
    else if (kget s.kitties dna).isSome then .error .SameKitties
    else if ¬ (s.kittiesOwned owner).length < cfg.maxKittiesOwned then
      .error .ExceedMaxKittiesOwned
    else if ¬ price ≤ s.free owner then .error .NotEnoughBalance
    else .ok { s with
      kittiesOwned := fupd s.kittiesOwned owner (s.kittiesOwned owner ++ [dna]),
      free := fupd s.free owner (s.free owner - price),
      reserved := fupd s.reserved owner (s.reserved owner + price),
      kitties := kinsert dna ⟨dna, price, owner⟩ s.kitties,
      kittiesCount := count }

/-- `breed_kitty` (lines 136-178), with the generated selector passed in.
The counter checks come first, then the parent lookups, exactly as in the
source. -/
def breed_kitty (cfg : Config) (owner : Nat) (parent_1 parent_2 selector : List Nat)
    (s : KState) : Except KErr KState :=
  let count := s.kittiesCount + 1
  if 2 ^ 32 ≤ count then .error .KittiesCountOverFlow
  else if ¬ count ≤ cfg.maxKittiesCount then .error .KittiesCountOverFlow
  else match kget s.kitties parent_1 with
  | none => .error .KittyNotExists
  | some kitty_1 =>
    match kget s.kitties parent_2 with
    | none => .error .KittyNotExists
    | some kitty_2 =>
      if ¬ kitty_1.owner = owner then .error .NotOwner
      else if ¬ kitty_2.owner = owner then .error .NotOwner
      else if kitty_1.dna = kitty_2.dna then .error .SameKitties
      else
        let price := cfg.kittyPrice
        if ¬ can_reserve s owner price then .error .NotEnoughBalance
        else
          let dna := combine kitty_1.dna kitty_2.dna selector
          if (kget s.kitties dna).isSome then .error .SameKitties
          else if ¬ (s.kittiesOwned owner).length < cfg.maxKittiesOwned then
            .error .ExceedMaxKittiesOwned
          else if ¬ price ≤ s.free owner then .error .NotEnoughBalance
          else .ok { s with
            kittiesOwned := fupd s.kittiesOwned owner (s.kittiesOwned owner ++ [dna]),
            free := fupd s.free owner (s.free owner - price),
            reserved := fupd s.reserved owner (s.reserved owner + price),
            kitties := kinsert dna ⟨dna, price, owner⟩ s.kitties,
            kittiesCount := count }

/-- Raw body of `transfer_kitty` (lines 181-218): returns the state as
written so far together with the error, so the single ledger write that
precedes the last fallible check (the `reserve` on the recipient at line
199, before the sender-side removal) is visible. -/
def transfer_kitty_raw (cfg : Config) (frm dest : Nat) (dna : List Nat)
    (s : KState) : KState × Option KErr :=
  if frm = dest then (s, some .TransferToSelf)
  else match kget s.kitties dna with
  | none => (s, some .KittyNotExists)
  | some kitty =>
    if ¬ kitty.owner = frm then (s, some .NotOwner)
    else if ¬ can_reserve s dest kitty.price then (s, some .NotEnoughBalance)
    else if ¬ (s.kittiesOwned dest).length < cfg.maxKittiesOwned then
      (s, some .ExceedMaxKittiesOwned)
    else
      let to_owned := s.kittiesOwned dest ++ [dna]
      if ¬ kitty.price ≤ s.free dest then (s, some .NotEnoughBalance)
      else
        let s1 : KState := { s with
          free := fupd s.free dest (s.free dest - kitty.price),
          reserved := fupd s.reserved dest (s.reserved dest + kitty.price) }
        match removeKitty (s1.kittiesOwned frm) dna with
        | none => (s1, some .KittyNotExists)
        | some from_owned =>
          let m := min kitty.price (s1.reserved frm)
          (⟨kinsert dna { kitty with owner := dest } s1.kitties,
            fupd (fupd s1.kittiesOwned dest to_owned) frm from_owned,
            s1.kittiesCount,
            fupd s1.reserved frm (s1.reserved frm - m),
            fupd s1.free frm (s1.free frm + m)⟩, none)

/-- `transfer_kitty` as dispatched: the host runs the body transactionally
and reverts all writes when it returns an error. -/
def transfer_kitty (cfg : Config) (frm dest : Nat) (dna : List Nat)
    (s : KState) : Except KErr KState :=
  match transfer_kitty_raw cfg frm dest dna s with
  | (_, some e) => .error e
  | (s', none) => .ok s'

/-- `set_price` (lines 221-237): owner-only update of the price field,
with no reservation adjustment. -/
def set_price (cfg : Config) (sender : Nat) (kitty_id : List Nat)
    (new_price : Nat) (s : KState) : Except KErr KState :=
  match kget s.kitties kitty_id with
  | none => .error .KittyNotExists
  | some kitty =>
    if ¬ kitty.owner = sender then .error .NotOwner
    else .ok { s with
      kitties := kinsert kitty_id { kitty with price := new_price } s.kitties }

/-- `do_buy_kitty` (lines 265-308).  The payment and price-threshold logic
is commented out in the source, so `bid_price` is accepted but unused and
no ledger call is made. -/
def do_buy_kitty (cfg : Config) (kitty_id : List Nat) (buyer : Nat)
    (bid_price : Nat) (s : KState) : Except KErr KState :=
  match kget s.kitties kitty_id with
  | none => .error .KittyNotExists
  | some kitty =>
    let seller := kitty.owner
    if seller = buyer then .error .TransferToSelf
    else match removeKitty (s.kittiesOwned seller) kitty_id with
    | none => .error .KittyNotExists
    | some seller_owned =>
      if ¬ (s.kittiesOwned buyer).length < cfg.maxKittiesOwned then
        .error .ExceedMaxKittiesOwned
      else .ok { s with
        kitties := kinsert kitty_id { kitty with owner := buyer } s.kitties,
        kittiesOwned := fupd (fupd s.kittiesOwned buyer
          (s.kittiesOwned buyer ++ [kitty_id])) seller seller_owned }

/-- `buy_kitty` (lines 240-250): delegates to `do_buy_kitty`. -/
def buy_kitty (cfg : Config) (buyer : Nat) (kitty_id : List Nat)
    (bid_price : Nat) (s : KState) : Except KErr KState :=
  do_buy_kitty cfg kitty_id buyer bid_price s

/-- One dispatchable call with its arguments (the randomly generated dna
or selector appearing as an explicit argument). -/
inductive Op where
  | create (owner : Nat) (dna : List Nat)
  | breed (owner : Nat) (parent_1 parent_2 selector : List Nat)
  | transfer (frm dest : Nat) (dna : List Nat)
  | setPrice (sender : Nat) (kitty_id : List Nat) (new_price : Nat)
  | buy (buyer : Nat) (kitty_id : List Nat) (bid_price : Nat)

/-- Dispatch one call. -/
def applyOp (cfg : Config) : Op → KState → Except KErr KState
  | .create owner dna => create_kitty cfg owner dna
  | .breed owner p1 p2 sel => breed_kitty cfg owner p1 p2 sel
  | .transfer frm dest dna => transfer_kitty cfg frm dest dna
  | .setPrice sender kitty_id p => set_price cfg sender kitty_id p
  | .buy buyer kitty_id bid => buy_kitty cfg buyer kitty_id bid

/-- Genesis state: empty storage, no reservations, arbitrary endowments. -/
def initState (free0 : Nat → Nat) : KState :=
  ⟨[], fun _ => [], 0, fun _ => 0, free0⟩

/-- States reachable from genesis by successful dispatches. -/
inductive Reachable (cfg : Config) : KState → Prop where
  | init (free0 : Nat → Nat) : Reachable cfg (initState free0)
  | step {s s' : KState} (op : Op) : Reachable cfg s →
      applyOp cfg op s = .ok s' → Reachable cfg s'

/-- Whether a call is a mint, breed or transfer (no pricing or purchase). -/
def Op.isMBT : Op → Bool
  | .setPrice .. => false
  | .buy .. => false
  | _ => true

/-- States reachable from genesis by successful mints, breeds and
transfers only. -/
inductive ReachableMBT (cfg : Config) : KState → Prop where
  | init (free0 : Nat → Nat) : ReachableMBT cfg (initState free0)
  | step {s s' : KState} (op : Op) : ReachableMBT cfg s → op.isMBT = true →
      applyOp cfg op s = .ok s' → ReachableMBT cfg s'

/-! Basic lemmas about the storage-map models. -/

@[simp] lemma fupd_self (f : Nat → α) (a : Nat) (v : α) : fupd f a v a = v := by
  simp [fupd]

lemma fupd_ne (f : Nat → α) {a b : Nat} (v : α) (h : b ≠ a) : fupd f a v b = f b := by
  simp [fupd, h]

@[simp] lemma kget_kinsert_self (d : List Nat) (k : Kitty) (l : List (List Nat × Kitty)) :
    kget (kinsert d k l) d = some k := by
  simp [kget, kinsert]

lemma kget_filter_ne (l : List (List Nat × Kitty)) {d d' : List Nat} (h : d' ≠ d) :
    kget (l.filter (fun p => ¬ p.1 = d)) d' = kget l d' := by
  induction l with
  | nil => rfl
  | cons p t ih =>
    obtain ⟨k, v⟩ := p
    by_cases hp : k = d
    · have hdrop : List.filter (fun q => ¬ q.1 = d) ((k, v) :: t)
          = List.filter (fun q => ¬ q.1 = d) t := by
        simp [List.filter_cons, hp]
      have hskip : kget ((k, v) :: t) d' = kget t d' := by
        simp only [kget]
        exact if_neg (fun hk => h (hk.symm.trans hp))
      rw [hdrop, ih, hskip]
    · have hkeep : List.filter (fun q => ¬ q.1 = d) ((k, v) :: t)
          = (k, v) :: List.filter (fun q => ¬ q.1 = d) t := by
        simp [List.filter_cons, hp]
      rw [hkeep]
      simp only [kget]
      by_cases hk : k = d'
      · simp [hk]
      · rw [if_neg hk, if_neg hk]
        exact ih

lemma kget_kinsert_ne (d : List Nat) (k : Kitty) (l : List (List Nat × Kitty))
    {d' : List Nat} (h : d' ≠ d) : kget (kinsert d k l) d' = kget l d' := by
  simp only [kinsert, kget]
  rw [if_neg (fun hh => h hh.symm)]
  exact kget_filter_ne l h

lemma kget_eq_none_iff (l : List (List Nat × Kitty)) (d : List Nat) :
    kget l d = none ↔ ∀ p ∈ l, p.1 ≠ d := by
  induction l with
  | nil => simp [kget]
  | cons p t ih =>
    obtain ⟨k, v⟩ := p
    simp only [kget]
    by_cases hk : k = d
    · simp [hk]
    · simp only [if_neg hk, ih, List.mem_cons]
      constructor
      · rintro h q (rfl | hq)
        · exact hk
        · exact h q hq
      · intro h q hq
        exact h q (Or.inr hq)

lemma filter_eq_self_of_kget_none (l : List (List Nat × Kitty)) (d : List Nat)
    (h : kget l d = none) : l.filter (fun p => ¬ p.1 = d) = l := by
  induction l with
  | nil => rfl
  | cons p t ih =>
    obtain ⟨k, v⟩ := p
    simp only [kget] at h
    by_cases hk : k = d
    · rw [if_pos hk] at h
      cases h
    · rw [if_neg hk] at h
      simp only [List.filter_cons, List.length_cons]
      rw [if_pos (by simp [hk]), ih h]

lemma kget_some_mem_keys {l : List (List Nat × Kitty)} {d : List Nat} {v : Kitty}
    (h : kget l d = some v) : d ∈ l.map Prod.fst := by
  induction l with
  | nil => cases h
  | cons p t ih =>
    obtain ⟨k, w⟩ := p
    simp only [kget] at h
    by_cases hk : k = d
    · simp [hk]
    · rw [if_neg hk] at h
      simp [ih h]

lemma length_kinsert_fresh (d : List Nat) (k : Kitty) (l : List (List Nat × Kitty))
    (h : kget l d = none) : (kinsert d k l).length = l.length + 1 := by
  simp only [kinsert, List.length_cons]
  rw [filter_eq_self_of_kget_none l d h]

lemma keys_filter_not_mem (l : List (List Nat × Kitty)) (d : List Nat) :
    d ∉ (l.filter (fun p => ¬ p.1 = d)).map Prod.fst := by
  intro hd
  obtain ⟨p, hp, hfst⟩ := List.mem_map.mp hd
  have := List.of_mem_filter hp
  simp [hfst] at this

lemma nodupKeys_kinsert (d : List Nat) (k : Kitty) (l : List (List Nat × Kitty))
    (h : (l.map Prod.fst).Nodup) : ((kinsert d k l).map Prod.fst).Nodup := by
  simp only [kinsert, List.map_cons, List.nodup_cons]
  refine ⟨keys_filter_not_mem l d, ?_⟩
  exact h.sublist (List.Sublist.map Prod.fst (List.filter_sublist l))

lemma length_kinsert_existing (d : List Nat) (k k' : Kitty)
    (l : List (List Nat × Kitty)) (hnd : (l.map Prod.fst).Nodup)
    (h : kget l d = some k') : (kinsert d k l).length = l.length := by
  induction l with
  | nil => simp [kget] at h
  | cons p t ih =>
    obtain ⟨kk, v⟩ := p
    simp only [List.map_cons, List.nodup_cons] at hnd
    simp only [kget] at h
    by_cases hk : kk = d
    · subst hk
      have hnone : kget t kk = none := by
        cases hg : kget t kk with
        | none => rfl
        | some w => exact absurd (kget_some_mem_keys hg) hnd.1
      have hfil : List.filter (fun p => ¬ p.1 = kk) ((kk, v) :: t) = t := by
        rw [List.filter_cons, if_neg (by simp), filter_eq_self_of_kget_none t kk hnone]
      simp only [kinsert, List.length_cons]
      rw [hfil]
    · rw [if_neg hk] at h
      have := ih hnd.2 h
      simp only [kinsert, List.length_cons] at this ⊢
      have hkeep : (List.filter (fun p => ¬ p.1 = d) ((kk, v) :: t)).length
          = (List.filter (fun p => ¬ p.1 = d) t).length + 1 := by
        simp [List.filter_cons, hk]
      omega

/-! Lemmas about `position`, `swapRemove` and `removeKitty`. -/

lemma position_eq_none_iff (d : List Nat) (l : List (List Nat)) :
    position d l = none ↔ d ∉ l := by
  induction l with
  | nil => simp [position]
  | cons x xs ih =>
    simp only [position]
    by_cases hx : x = d
    · simp [hx]
    · simp only [if_neg hx, Option.map_eq_none', ih, List.mem_cons]
      constructor
      · rintro h (rfl | hm)
        · exact hx rfl
        · exact h hm
      · intro h hm
        exact h (Or.inr hm)

lemma position_spec (d : List Nat) (l : List (List Nat)) (i : Nat)
    (h : position d l = some i) :
    ∃ T D, l = T ++ d :: D ∧ T.length = i := by
  induction l generalizing i with
  | nil => simp [position] at h
  | cons x xs ih =>
    simp only [position] at h
    by_cases hx : x = d
    · rw [if_pos hx] at h
      obtain rfl : (0 : Nat) = i := Option.some.inj h
      exact ⟨[], xs, by simp [hx], rfl⟩
    · rw [if_neg hx] at h
      obtain ⟨j, hj, rfl⟩ := Option.map_eq_some'.mp h
      obtain ⟨T, D, hTD, hlen⟩ := ih j hj
      exact ⟨x :: T, D, by simp [hTD], by simp [hlen]⟩

lemma set_append_length (T rest : List (List Nat)) (v : List Nat) :
    (T ++ rest).set T.length v = T ++ rest.set 0 v := by
  induction T with
  | nil => simp
  | cons x xs ih => simp [ih]

lemma swapRemove_concat (l : List (List Nat)) (x : List Nat) (i : Nat) :
    swapRemove (l ++ [x]) i = ((l ++ [x]).set i x).dropLast := by
  unfold swapRemove
  rw [List.getLast?_concat]

lemma swapRemove_structure (T D : List (List Nat)) (d : List Nat) :
    (swapRemove (T ++ d :: D) T.length).Perm (T ++ D) := by
  rcases List.eq_nil_or_concat D with rfl | ⟨E, x, rfl⟩
  · have : T ++ d :: ([] : List (List Nat)) = T ++ [d] := rfl
    rw [this, swapRemove_concat, set_append_length]
    have hset : ([d] : List (List Nat)).set 0 d = [d] := rfl
    rw [hset, List.dropLast_concat]
    simp
  · simp only [List.concat_eq_append]
    have hform : T ++ d :: (E ++ [x]) = (T ++ d :: E) ++ [x] := by simp
    rw [hform, swapRemove_concat, ← hform, set_append_length]
    have h2 : (d :: (E ++ [x])).set 0 x = x :: (E ++ [x]) := rfl
    rw [h2]
    have h3 : T ++ x :: (E ++ [x]) = (T ++ x :: E) ++ [x] := by simp
    rw [h3, List.dropLast_concat]
    exact List.Perm.append_left T (@List.perm_append_comm _ [x] E)

lemma removeKitty_spec {l : List (List Nat)} {d : List Nat} {l' : List (List Nat)}
    (h : removeKitty l d = some l') :
    ∃ T D, l = T ++ d :: D ∧ l'.Perm (T ++ D) := by
  obtain ⟨i, hi, rfl⟩ := Option.map_eq_some'.mp h
  obtain ⟨T, D, rfl, rfl⟩ := position_spec d _ i hi
  exact ⟨T, D, rfl, swapRemove_structure T D d⟩

lemma removeKitty_eq_none_iff (l : List (List Nat)) (d : List Nat) :
    removeKitty l d = none ↔ d ∉ l := by
  simp [removeKitty, position_eq_none_iff]

lemma removeKitty_isSome_of_mem {l : List (List Nat)} {d : List Nat}
    (h : d ∈ l) : ∃ l', removeKitty l d = some l' := by
  cases hr : removeKitty l d with
  | none => exact absurd ((removeKitty_eq_none_iff l d).mp hr) (by simp [h])
  | some l' => exact ⟨l', rfl⟩

lemma removeKitty_length {l : List (List Nat)} {d : List Nat} {l' : List (List Nat)}
    (h : removeKitty l d = some l') : l'.length + 1 = l.length := by
  obtain ⟨T, D, rfl, hperm⟩ := removeKitty_spec h
  have := hperm.length_eq
  simp only [List.length_append, List.length_cons] at this ⊢
  omega

lemma removeKitty_mem {l : List (List Nat)} {d x : List Nat} {l' : List (List Nat)}
    (h : removeKitty l d = some l') (hx : x ∈ l') : x ∈ l := by
  obtain ⟨T, D, rfl, hperm⟩ := removeKitty_spec h
  have := hperm.mem_iff.mp hx
  simp only [List.mem_append] at this ⊢
  rcases this with hT | hD
  · exact Or.inl hT
  · exact Or.inr (List.mem_cons_of_mem d hD)

/-- Occurrence count of a dna in an owned list. -/
def countD (d : List Nat) : List (List Nat) → Nat
  | [] => 0
  | x :: xs => (if x = d then 1 else 0) + countD d xs

lemma countD_append (d : List Nat) (l1 l2 : List (List Nat)) :
    countD d (l1 ++ l2) = countD d l1 + countD d l2 := by
  induction l1 with
  | nil => simp [countD]
  | cons x xs ih => simp [countD, ih]; omega

lemma countD_perm {l1 l2 : List (List Nat)} (h : l1.Perm l2) (d : List Nat) :
    countD d l1 = countD d l2 := by
  induction h with
  | nil => rfl
  | cons x h ih => simp [countD, ih]
  | swap x y l => simp [countD]; omega
  | trans h1 h2 ih1 ih2 => exact ih1.trans ih2

lemma countD_eq_zero {d : List Nat} {l : List (List Nat)} :
    countD d l = 0 ↔ d ∉ l := by
  induction l with
  | nil => simp [countD]
  | cons x xs ih =>
    by_cases hx : x = d
    · simp [countD, hx]
    · simp only [countD, List.mem_cons]
      rw [if_neg hx]
      simp only [Nat.zero_add, ih]
      constructor
      · intro h hm
        rcases hm with rfl | hm
        · exact hx rfl
        · exact h hm
      · intro h hm
        exact h (Or.inr hm)

lemma mem_of_countD_pos {d : List Nat} {l : List (List Nat)}
    (h : 0 < countD d l) : d ∈ l := by
  by_contra hm
  rw [← countD_eq_zero] at hm
  omega

lemma removeKitty_countD_self {l : List (List Nat)} {d : List Nat}
    {l' : List (List Nat)} (h : removeKitty l d = some l') :
    countD d l' + 1 = countD d l := by
  obtain ⟨T, D, rfl, hperm⟩ := removeKitty_spec h
  rw [countD_perm hperm]
  simp [countD_append, countD]
  omega

lemma removeKitty_countD_ne {l : List (List Nat)} {d x : List Nat}
    {l' : List (List Nat)} (h : removeKitty l d = some l') (hx : x ≠ d) :
    countD x l' = countD x l := by
  obtain ⟨T, D, rfl, hperm⟩ := removeKitty_spec h
  rw [countD_perm hperm]
  have hd : ¬ d = x := fun hh => hx hh.symm
  simp [countD_append, countD, hd]

lemma removeKitty_map_sum {l : List (List Nat)} {d : List Nat}
    {l' : List (List Nat)} (f : List Nat → Nat)
    (h : removeKitty l d = some l') :
    (l'.map f).sum + f d = (l.map f).sum := by
  obtain ⟨T, D, rfl, hperm⟩ := removeKitty_spec h
  have : (l'.map f).Perm ((T ++ D).map f) := hperm.map f
  rw [this.sum_eq]
  simp [List.sum_append]
  omega

/-! Shape lemmas: a successful call is equivalent to its guards holding,
and determines the committed state exactly. -/

lemma create_ok_shape {cfg : Config} {o : Nat} {dna : List Nat} {s s' : KState}
    (h : create_kitty cfg o dna s = .ok s') :
    kget s.kitties dna = none ∧
    (s.kittiesOwned o).length < cfg.maxKittiesOwned ∧
    cfg.kittyPrice ≤ s.free o ∧
    s.kittiesCount + 1 ≤ cfg.maxKittiesCount ∧
    s.kittiesCount + 1 < 2 ^ 32 ∧
    s' = { s with
      kittiesOwned := fupd s.kittiesOwned o (s.kittiesOwned o ++ [dna]),
      free := fupd s.free o (s.free o - cfg.kittyPrice),
      reserved := fupd s.reserved o (s.reserved o + cfg.kittyPrice),
      kitties := kinsert dna ⟨dna, cfg.kittyPrice, o⟩ s.kitties,
      kittiesCount := s.kittiesCount + 1 } := by
  simp only [create_kitty] at h
  by_cases h1 : ¬ can_reserve s o cfg.kittyPrice
  · rw [if_pos h1] at h
    exact Except.noConfusion h
  rw [if_neg h1] at h
  by_cases h2 : 2 ^ 32 ≤ s.kittiesCount + 1
  · rw [if_pos h2] at h
    exact Except.noConfusion h
  rw [if_neg h2] at h
  by_cases h3 : ¬ s.kittiesCount + 1 ≤ cfg.maxKittiesCount
  · rw [if_pos h3] at h
    exact Except.noConfusion h
  rw [if_neg h3] at h
  cases hk : kget s.kitties dna with
  | some v =>
    rw [hk] at h
    simp at h
  | none =>
    rw [hk] at h
    rw [if_neg (by simp)] at h
    by_cases h5 : ¬ (s.kittiesOwned o).length < cfg.maxKittiesOwned
    · rw [if_pos h5] at h
      exact Except.noConfusion h
    rw [if_neg h5] at h
    by_cases h6 : ¬ cfg.kittyPrice ≤ s.free o
    · rw [if_pos h6] at h
      exact Except.noConfusion h
    rw [if_neg h6] at h
    injection h with h7
    exact ⟨rfl, not_not.mp h5, not_not.mp h6, not_not.mp h3, by omega, h7.symm⟩

lemma breed_ok_shape {cfg : Config} {o : Nat} {p1 p2 sel : List Nat} {s s' : KState}
    (h : breed_kitty cfg o p1 p2 sel s = .ok s') :
    ∃ k1 k2, kget s.kitties p1 = some k1 ∧ kget s.kitties p2 = some k2 ∧
      k1.owner = o ∧ k2.owner = o ∧ ¬ k1.dna = k2.dna ∧
      s.kittiesCount + 1 < 2 ^ 32 ∧ s.kittiesCount + 1 ≤ cfg.maxKittiesCount ∧
      kget s.kitties (combine k1.dna k2.dna sel) = none ∧
      (s.kittiesOwned o).length < cfg.maxKittiesOwned ∧
      cfg.kittyPrice ≤ s.free o ∧
      s' = { s with
        kittiesOwned := fupd s.kittiesOwned o
          (s.kittiesOwned o ++ [combine k1.dna k2.dna sel]),
        free := fupd s.free o (s.free o - cfg.kittyPrice),
        reserved := fupd s.reserved o (s.reserved o + cfg.kittyPrice),
        kitties := kinsert (combine k1.dna k2.dna sel)
          ⟨combine k1.dna k2.dna sel, cfg.kittyPrice, o⟩ s.kitties,
        kittiesCount := s.kittiesCount + 1 } := by
  simp only [breed_kitty] at h
  by_cases h1 : 2 ^ 32 ≤ s.kittiesCount + 1
  · rw [if_pos h1] at h
    exact Except.noConfusion h
  rw [if_neg h1] at h
  by_cases h2 : ¬ s.kittiesCount + 1 ≤ cfg.maxKittiesCount
  · rw [if_pos h2] at h
    exact Except.noConfusion h
  rw [if_neg h2] at h
  cases hk1 : kget s.kitties p1 with
  | none =>
    simp only [hk1] at h
    exact Except.noConfusion h
  | some k1 =>
  simp only [hk1] at h
  cases hk2 : kget s.kitties p2 with
  | none =>
    simp only [hk2] at h
    exact Except.noConfusion h
  | some k2 =>
  simp only [hk2] at h
  by_cases h3 : ¬ k1.owner = o
  · rw [if_pos h3] at h
    exact Except.noConfusion h
  rw [if_neg h3] at h
  by_cases h4 : ¬ k2.owner = o
  · rw [if_pos h4] at h
    exact Except.noConfusion h
  rw [if_neg h4] at h
  by_cases h5 : k1.dna = k2.dna
  · rw [if_pos h5] at h
    exact Except.noConfusion h
  rw [if_neg h5] at h
  by_cases h6 : ¬ can_reserve s o cfg.kittyPrice
  · rw [if_pos h6] at h
    exact Except.noConfusion h
  rw [if_neg h6] at h
  cases hk : kget s.kitties (combine k1.dna k2.dna sel) with
  | some v =>
    rw [hk] at h
    simp at h
  | none =>
  rw [hk] at h
  rw [if_neg (by simp)] at h
  by_cases h7 : ¬ (s.kittiesOwned o).length < cfg.maxKittiesOwned
  · rw [if_pos h7] at h
    exact Except.noConfusion h
  rw [if_neg h7] at h
  by_cases h8 : ¬ cfg.kittyPrice ≤ s.free o
  · rw [if_pos h8] at h
    exact Except.noConfusion h
  rw [if_neg h8] at h
  injection h with h9
  exact ⟨k1, k2, rfl, rfl, not_not.mp h3, not_not.mp h4, h5, by omega,
    not_not.mp h2, hk, not_not.mp h7, not_not.mp h8, h9.symm⟩

lemma transfer_ok_shape {cfg : Config} {frm dest : Nat} {dna : List Nat}
    {s s' : KState} (h : transfer_kitty cfg frm dest dna s = .ok s') :
    ∃ kitty from_owned, ¬ frm = dest ∧ kget s.kitties dna = some kitty ∧
      kitty.owner = frm ∧ kitty.price ≤ s.free dest ∧
      (s.kittiesOwned dest).length < cfg.maxKittiesOwned ∧
      removeKitty (s.kittiesOwned frm) dna = some from_owned ∧
      s' = { s with
        kitties := kinsert dna { kitty with owner := dest } s.kitties,
        kittiesOwned := fupd (fupd s.kittiesOwned dest
          (s.kittiesOwned dest ++ [dna])) frm from_owned,
        reserved := fupd (fupd s.reserved dest (s.reserved dest + kitty.price))
          frm (s.reserved frm - min kitty.price (s.reserved frm)),
        free := fupd (fupd s.free dest (s.free dest - kitty.price))
          frm (s.free frm + min kitty.price (s.reserved frm)) } := by
  simp only [transfer_kitty, transfer_kitty_raw] at h
  by_cases h1 : frm = dest
  · rw [if_pos h1] at h
    simp at h
  rw [if_neg h1] at h
  cases hk : kget s.kitties dna with
  | none =>
    simp only [hk] at h
    exact Except.noConfusion h
  | some kitty =>
  simp only [hk] at h
  by_cases h2 : ¬ kitty.owner = frm
  · rw [if_pos h2] at h
    simp at h
  rw [if_neg h2] at h
  by_cases h3 : ¬ can_reserve s dest kitty.price
  · rw [if_pos h3] at h
    simp at h
  rw [if_neg h3] at h
  by_cases h4 : ¬ (s.kittiesOwned dest).length < cfg.maxKittiesOwned
  · rw [if_pos h4] at h
    simp at h
  rw [if_neg h4] at h
  by_cases h5 : ¬ kitty.price ≤ s.free dest
  · rw [if_pos h5] at h
    simp at h
  rw [if_neg h5] at h
  cases hr : removeKitty (s.kittiesOwned frm) dna with
  | none =>
    simp only [hr] at h
    exact Except.noConfusion h
  | some from_owned =>
  simp only [hr] at h
  injection h with h6
  refine ⟨kitty, from_owned, h1, rfl, not_not.mp h2, not_not.mp h5,
    not_not.mp h4, rfl, ?_⟩
  rw [← h6]
  have hres : fupd s.reserved dest (s.reserved dest + kitty.price) frm
      = s.reserved frm := fupd_ne _ _ h1
  have hfree : fupd s.free dest (s.free dest - kitty.price) frm
      = s.free frm := fupd_ne _ _ h1
  simp only [hres, hfree]

lemma set_price_ok_shape {cfg : Config} {sender : Nat} {kitty_id : List Nat}
    {new_price : Nat} {s s' : KState}
    (h : set_price cfg sender kitty_id new_price s = .ok s') :
    ∃ kitty, kget s.kitties kitty_id = some kitty ∧ kitty.owner = sender ∧
      s' = { s with
        kitties := kinsert kitty_id { kitty with price := new_price } s.kitties } := by
  simp only [set_price] at h
  cases hk : kget s.kitties kitty_id with
  | none =>
    simp only [hk] at h
    exact Except.noConfusion h
  | some kitty =>
  simp only [hk] at h
  by_cases h1 : ¬ kitty.owner = sender
  · rw [if_pos h1] at h
    simp at h
  rw [if_neg h1] at h
  injection h with h2
  exact ⟨kitty, rfl, not_not.mp h1, h2.symm⟩

lemma buy_ok_shape {cfg : Config} {buyer : Nat} {kitty_id : List Nat}
    {bid_price : Nat} {s s' : KState}
    (h : buy_kitty cfg buyer kitty_id bid_price s = .ok s') :
    ∃ kitty seller_owned, kget s.kitties kitty_id = some kitty ∧
      ¬ kitty.owner = buyer ∧
      removeKitty (s.kittiesOwned kitty.owner) kitty_id = some seller_owned ∧
      (s.kittiesOwned buyer).length < cfg.maxKittiesOwned ∧
      s' = { s with
        kitties := kinsert kitty_id { kitty with owner := buyer } s.kitties,
        kittiesOwned := fupd (fupd s.kittiesOwned buyer
          (s.kittiesOwned buyer ++ [kitty_id])) kitty.owner seller_owned } := by
  simp only [buy_kitty, do_buy_kitty] at h
  cases hk : kget s.kitties kitty_id with
  | none =>
    simp only [hk] at h
    exact Except.noConfusion h
  | some kitty =>
  simp only [hk] at h
  by_cases h1 : kitty.owner = buyer
  · rw [if_pos h1] at h
    simp at h
  rw [if_neg h1] at h
  cases hr : removeKitty (s.kittiesOwned kitty.owner) kitty_id with
  | none =>
    simp only [hr] at h
    exact Except.noConfusion h
  | some seller_owned =>
  simp only [hr] at h
  by_cases h2 : ¬ (s.kittiesOwned buyer).length < cfg.maxKittiesOwned
  · rw [if_pos h2] at h
    simp at h
  rw [if_neg h2] at h
  injection h with h3
  exact ⟨kitty, seller_owned, rfl, h1, hr, not_not.mp h2, h3.symm⟩

lemma removeKitty_mem_self {l : List (List Nat)} {d : List Nat}
    {l' : List (List Nat)} (h : removeKitty l d = some l') : d ∈ l := by
  obtain ⟨T, D, rfl, -⟩ := removeKitty_spec h
  simp

/-! The ownership-index consistency invariant. -/

/-- Ownership-index consistency over a registry and an ownership index:
every owned list is within `MaxKittiesOwned`; every listed dna resolves to
a registry record owned by that account; every registry record's dna
occurs exactly once in its owner's list; and no dna is listed for two
accounts. -/
def OwnInvC (cfg : Config) (reg : List (List Nat × Kitty))
    (owned : Nat → List (List Nat)) : Prop :=
  (∀ a, (owned a).length ≤ cfg.maxKittiesOwned) ∧
  (∀ a d, d ∈ owned a → ∃ k, kget reg d = some k ∧ k.owner = a) ∧
  (∀ d k, kget reg d = some k → countD d (owned k.owner) = 1) ∧
  (∀ a b d, d ∈ owned a → d ∈ owned b → a = b)

/-- Ownership-index consistency of a pallet state. -/
def OwnInv (cfg : Config) (s : KState) : Prop :=
  OwnInvC cfg s.kitties s.kittiesOwned

lemma ownInvC_append_fresh (cfg : Config) (reg : List (List Nat × Kitty))
    (owned : Nat → List (List Nat)) (o : Nat) (dna : List Nat) (k : Kitty)
    (hInv : OwnInvC cfg reg owned)
    (hfresh : kget reg dna = none)
    (hlen : (owned o).length < cfg.maxKittiesOwned)
    (hko : k.owner = o) :
    OwnInvC cfg (kinsert dna k reg) (fupd owned o (owned o ++ [dna])) := by
  obtain ⟨hA, hB, hC, hD⟩ := hInv
  have key : ∀ x, dna ∈ fupd owned o (owned o ++ [dna]) x → x = o := by
    intro x hx
    by_cases hxo : x = o
    · exact hxo
    · rw [fupd_ne _ _ hxo] at hx
      obtain ⟨k0, hk0, -⟩ := hB x dna hx
      rw [hfresh] at hk0
      exact Option.noConfusion hk0
  have unchanged : ∀ x d', ¬ d' = dna →
      d' ∈ fupd owned o (owned o ++ [dna]) x → d' ∈ owned x := by
    intro x d' had hd'
    by_cases hxo : x = o
    · subst hxo
      rw [fupd_self] at hd'
      rcases List.mem_append.mp hd' with hm | hm
      · exact hm
      · simp at hm
        exact absurd hm had
    · rw [fupd_ne _ _ hxo] at hd'
      exact hd'
  refine ⟨?_, ?_, ?_, ?_⟩
  · intro a
    by_cases ha : a = o
    · subst ha
      rw [fupd_self]
      simp only [List.length_append, List.length_cons, List.length_nil]
      omega
    · rw [fupd_ne _ _ ha]
      exact hA a
  · intro a d' hd'
    by_cases had : dna = d'
    · subst had
      have ha := key a hd'
      subst ha
      exact ⟨k, kget_kinsert_self _ _ _, hko⟩
    · have hadn : ¬ d' = dna := fun hh => had hh.symm
      rw [kget_kinsert_ne _ _ _ hadn]
      exact hB a d' (unchanged a d' hadn hd')
  · intro d' k0 hk0
    by_cases had : dna = d'
    · subst had
      rw [kget_kinsert_self] at hk0
      injection hk0 with hk0
      subst hk0
      rw [hko, fupd_self, countD_append]
      have h0 : countD dna (owned o) = 0 := by
        rw [countD_eq_zero]
        intro hmem
        obtain ⟨k1, hk1, -⟩ := hB o dna hmem
        rw [hfresh] at hk1
        exact Option.noConfusion hk1
      simp [h0, countD]
    · have hadn : ¬ d' = dna := fun hh => had hh.symm
      rw [kget_kinsert_ne _ _ _ hadn] at hk0
      have hc := hC d' k0 hk0
      by_cases ha : k0.owner = o
      · rw [ha, fupd_self, countD_append]
        rw [ha] at hc
        simp [countD, had, hc]
      · rw [fupd_ne _ _ ha]
        exact hc
  · intro a b d' hda hdb
    by_cases had : dna = d'
    · subst had
      rw [key a hda, key b hdb]
    · have hadn : ¬ d' = dna := fun hh => had hh.symm
      exact hD a b d' (unchanged a d' hadn hda) (unchanged b d' hadn hdb)

lemma ownInvC_move (cfg : Config) (reg : List (List Nat × Kitty))
    (owned : Nat → List (List Nat)) (dna : List Nat) (kitty k' : Kitty)
    (src dst : Nat) (new_owned : List (List Nat))
    (hInv : OwnInvC cfg reg owned)
    (hk : kget reg dna = some kitty)
    (howner : kitty.owner = src)
    (hne : ¬ src = dst)
    (hrm : removeKitty (owned src) dna = some new_owned)
    (hlen : (owned dst).length < cfg.maxKittiesOwned)
    (hko : k'.owner = dst) :
    OwnInvC cfg (kinsert dna k' reg)
      (fupd (fupd owned dst (owned dst ++ [dna])) src new_owned) := by
  obtain ⟨hA, hB, hC, hD⟩ := hInv
  have hdstsrc : ¬ dst = src := fun hh => hne hh.symm
  have hdnasrc : dna ∈ owned src := removeKitty_mem_self hrm
  have hcount_src : countD dna (owned src) = 1 := by
    have := hC dna kitty hk
    rwa [howner] at this
  have hnew_not_mem : dna ∉ new_owned := by
    have := removeKitty_countD_self hrm
    rw [← countD_eq_zero]
    omega
  have hdst_not_mem : dna ∉ owned dst := by
    intro hm
    exact hne (hD src dst dna hdnasrc hm)
  have e_src : fupd (fupd owned dst (owned dst ++ [dna])) src new_owned src
      = new_owned := fupd_self _ _ _
  have e_dst : fupd (fupd owned dst (owned dst ++ [dna])) src new_owned dst
      = owned dst ++ [dna] := by
    rw [fupd_ne _ _ hdstsrc, fupd_self]
  have e_other : ∀ x, ¬ x = src → ¬ x = dst →
      fupd (fupd owned dst (owned dst ++ [dna])) src new_owned x = owned x := by
    intro x hx1 hx2
    rw [fupd_ne _ _ hx1, fupd_ne _ _ hx2]
  have key : ∀ x, dna ∈ fupd (fupd owned dst (owned dst ++ [dna])) src new_owned x
      → x = dst := by
    intro x hx
    by_cases hx1 : x = src
    · subst hx1
      rw [e_src] at hx
      exact absurd hx hnew_not_mem
    · by_cases hx2 : x = dst
      · exact hx2
      · rw [e_other x hx1 hx2] at hx
        exact absurd (hD x src dna hx hdnasrc) hx1
  have unchanged : ∀ x d', ¬ d' = dna →
      d' ∈ fupd (fupd owned dst (owned dst ++ [dna])) src new_owned x
      → d' ∈ owned x := by
    intro x d' had hd'
    by_cases hx1 : x = src
    · subst hx1
      rw [e_src] at hd'
      exact removeKitty_mem hrm hd'
    · by_cases hx2 : x = dst
      · subst hx2
        rw [e_dst] at hd'
        rcases List.mem_append.mp hd' with hm | hm
        · exact hm
        · simp at hm
          exact absurd hm had
      · rw [e_other x hx1 hx2] at hd'
        exact hd'
  refine ⟨?_, ?_, ?_, ?_⟩
  · intro a
    by_cases ha1 : a = src
    · subst ha1
      rw [e_src]
      have h1 := removeKitty_length hrm
      have h2 := hA a
      omega
    · by_cases ha2 : a = dst
      · subst ha2
        rw [e_dst]
        simp only [List.length_append, List.length_cons, List.length_nil]
        omega
      · rw [e_other a ha1 ha2]
        exact hA a
  · intro a d' hd'
    by_cases had : dna = d'
    · subst had
      have ha := key a hd'
      subst ha
      exact ⟨k', kget_kinsert_self _ _ _, hko⟩
    · have hadn : ¬ d' = dna := fun hh => had hh.symm
      rw [kget_kinsert_ne _ _ _ hadn]
      exact hB a d' (unchanged a d' hadn hd')
  · intro d' k0 hk0
    by_cases had : dna = d'
    · subst had
      rw [kget_kinsert_self] at hk0
      injection hk0 with hk0
      subst hk0
      rw [hko, e_dst, countD_append]
      have h0 : countD dna (owned dst) = 0 := countD_eq_zero.mpr hdst_not_mem
      simp [h0, countD]
    · have hadn : ¬ d' = dna := fun hh => had hh.symm
      rw [kget_kinsert_ne _ _ _ hadn] at hk0
      have hc := hC d' k0 hk0
      by_cases ho1 : k0.owner = src
      · rw [ho1, e_src, removeKitty_countD_ne hrm hadn]
        rw [ho1] at hc
        exact hc
      · by_cases ho2 : k0.owner = dst
        · rw [ho2, e_dst, countD_append]
          rw [ho2] at hc
          simp [countD, had, hc]
        · rw [e_other k0.owner ho1 ho2]
          exact hc
  · intro a b d' hda hdb
    by_cases had : dna = d'
    · subst had
      rw [key a hda, key b hdb]
    · have hadn : ¬ d' = dna := fun hh => had hh.symm
      exact hD a b d' (unchanged a d' hadn hda) (unchanged b d' hadn hdb)

lemma ownInvC_setprice (cfg : Config) (reg : List (List Nat × Kitty))
    (owned : Nat → List (List Nat)) (dna : List Nat) (kitty k' : Kitty)
    (hInv : OwnInvC cfg reg owned)
    (hk : kget reg dna = some kitty)
    (hsame : k'.owner = kitty.owner) :
    OwnInvC cfg (kinsert dna k' reg) owned := by
  obtain ⟨hA, hB, hC, hD⟩ := hInv
  refine ⟨hA, ?_, ?_, hD⟩
  · intro a d' hd'
    obtain ⟨k0, hk0, hok0⟩ := hB a d' hd'
    by_cases had : dna = d'
    · subst had
      rw [hk] at hk0
      injection hk0 with hk0
      subst hk0
      refine ⟨k', kget_kinsert_self _ _ _, ?_⟩
      rw [hsame]
      exact hok0
    · have hadn : ¬ d' = dna := fun hh => had hh.symm
      rw [kget_kinsert_ne _ _ _ hadn]
      exact ⟨k0, hk0, hok0⟩
  · intro d' k0 hk0
    by_cases had : dna = d'
    · subst had
      rw [kget_kinsert_self] at hk0
      injection hk0 with hk0
      subst hk0
      rw [hsame]
      exact hC dna kitty hk
    · have hadn : ¬ d' = dna := fun hh => had hh.symm
      rw [kget_kinsert_ne _ _ _ hadn] at hk0
      exact hC d' k0 hk0

/-- Ownership-index consistency is preserved by every successful dispatch. -/
lemma ownInv_step {cfg : Config} {op : Op} {s s' : KState}
    (h : applyOp cfg op s = .ok s') (hInv : OwnInv cfg s) : OwnInv cfg s' := by
  cases op with
  | create o dna =>
    simp only [applyOp] at h
    obtain ⟨hfresh, hlen, -, -, -, rfl⟩ := create_ok_shape h
    exact ownInvC_append_fresh cfg s.kitties s.kittiesOwned o dna
      ⟨dna, cfg.kittyPrice, o⟩ hInv hfresh hlen rfl
  | breed o p1 p2 sel =>
    simp only [applyOp] at h
    obtain ⟨k1, k2, -, -, -, -, -, -, -, hfresh, hlen, -, rfl⟩ := breed_ok_shape h
    exact ownInvC_append_fresh cfg s.kitties s.kittiesOwned o
      (combine k1.dna k2.dna sel) ⟨combine k1.dna k2.dna sel, cfg.kittyPrice, o⟩
      hInv hfresh hlen rfl
  | transfer frm dest dna =>
    simp only [applyOp] at h
    obtain ⟨kitty, from_owned, hne, hk, howner, -, hlen, hrm, rfl⟩ :=
      transfer_ok_shape h
    exact ownInvC_move cfg s.kitties s.kittiesOwned dna kitty
      { kitty with owner := dest } frm dest from_owned hInv hk howner hne hrm
      hlen rfl
  | setPrice sender kitty_id p =>
    simp only [applyOp] at h
    obtain ⟨kitty, hk, -, rfl⟩ := set_price_ok_shape h
    exact ownInvC_setprice cfg s.kitties s.kittiesOwned kitty_id kitty
      { kitty with price := p } hInv hk rfl
  | buy buyer kitty_id bid =>
    simp only [applyOp] at h
    obtain ⟨kitty, seller_owned, hk, hne, hrm, hlen, rfl⟩ := buy_ok_shape h
    exact ownInvC_move cfg s.kitties s.kittiesOwned kitty_id kitty
      { kitty with owner := buyer } kitty.owner buyer seller_owned hInv hk rfl
      hne hrm hlen rfl

/-! The reservation-consistency invariant. -/

/-- Price of the registry record of a dna, zero when absent. -/
def priceOfReg (reg : List (List Nat × Kitty)) (d : List Nat) : Nat :=
  match kget reg d with
  | some k => k.price
  | none => 0

/-- Sum of `price` over the assets an account currently owns. -/
def ownedPriceSum (s : KState) (a : Nat) : Nat :=
  ((s.kittiesOwned a).map (priceOfReg s.kitties)).sum

/-- Reservation consistency: every account's reserved balance equals the
sum of `price` over the assets it currently owns. -/
def ResInv (s : KState) : Prop := ∀ a, s.reserved a = ownedPriceSum s a

lemma priceOfReg_kinsert_self (reg : List (List Nat × Kitty)) (d : List Nat)
    (k : Kitty) : priceOfReg (kinsert d k reg) d = k.price := by
  simp [priceOfReg]

lemma priceOfReg_kinsert_ne (reg : List (List Nat × Kitty)) {d d' : List Nat}
    (k : Kitty) (h : ¬ d' = d) :
    priceOfReg (kinsert d k reg) d' = priceOfReg reg d' := by
  simp [priceOfReg, kget_kinsert_ne _ _ _ h]

lemma priceOfReg_kinsert_same_price (reg : List (List Nat × Kitty))
    {d : List Nat} {kitty k' : Kitty} (hk : kget reg d = some kitty)
    (hp : k'.price = kitty.price) (x : List Nat) :
    priceOfReg (kinsert d k' reg) x = priceOfReg reg x := by
  by_cases hx : x = d
  · subst hx
    rw [priceOfReg_kinsert_self]
    simp [priceOfReg, hk, hp]
  · exact priceOfReg_kinsert_ne reg k' hx

lemma sum_map_congr (l : List (List Nat)) (f g : List Nat → Nat)
    (h : ∀ x ∈ l, f x = g x) : (l.map f).sum = (l.map g).sum := by
  induction l with
  | nil => rfl
  | cons x xs ih =>
    simp only [List.map_cons, List.sum_cons]
    rw [h x (by simp), ih (fun y hy => h y (by simp [hy]))]

lemma price_le_ownedPriceSum {s : KState} {a : Nat} {dna : List Nat}
    {kitty : Kitty} (hk : kget s.kitties dna = some kitty)
    (hmem : dna ∈ s.kittiesOwned a) : kitty.price ≤ ownedPriceSum s a := by
  have hp : priceOfReg s.kitties dna = kitty.price := by simp [priceOfReg, hk]
  have : priceOfReg s.kitties dna ∈ (s.kittiesOwned a).map (priceOfReg s.kitties) :=
    List.mem_map_of_mem _ hmem
  calc kitty.price = priceOfReg s.kitties dna := hp.symm
    _ ≤ ownedPriceSum s a := List.single_le_sum (fun x _ => Nat.zero_le x) _ this

lemma resInv_commit_mint (cfg : Config) (s : KState) (o : Nat) (dna : List Nat)
    (hOwn : OwnInv cfg s) (hRes : ResInv s)
    (hfresh : kget s.kitties dna = none) :
    ResInv { s with
      kittiesOwned := fupd s.kittiesOwned o (s.kittiesOwned o ++ [dna]),
      free := fupd s.free o (s.free o - cfg.kittyPrice),
      reserved := fupd s.reserved o (s.reserved o + cfg.kittyPrice),
      kitties := kinsert dna ⟨dna, cfg.kittyPrice, o⟩ s.kitties,
      kittiesCount := s.kittiesCount + 1 } := by
  obtain ⟨-, hB, -, -⟩ := hOwn
  have hnot : ∀ a, dna ∉ s.kittiesOwned a := by
    intro a hmem
    obtain ⟨k0, hk0, -⟩ := hB a dna hmem
    rw [hfresh] at hk0
    exact Option.noConfusion hk0
  have hcongr : ∀ a, ((s.kittiesOwned a).map
      (priceOfReg (kinsert dna ⟨dna, cfg.kittyPrice, o⟩ s.kitties))).sum
      = ((s.kittiesOwned a).map (priceOfReg s.kitties)).sum := by
    intro a
    refine sum_map_congr _ _ _ (fun x hx => ?_)
    have hxd : ¬ x = dna := fun hh => hnot a (hh ▸ hx)
    exact priceOfReg_kinsert_ne _ _ hxd
  intro a
  show fupd s.reserved o (s.reserved o + cfg.kittyPrice) a
    = ((fupd s.kittiesOwned o (s.kittiesOwned o ++ [dna]) a).map
        (priceOfReg (kinsert dna ⟨dna, cfg.kittyPrice, o⟩ s.kitties))).sum
  by_cases ha : a = o
  · subst ha
    rw [fupd_self, fupd_self, List.map_append, List.sum_append]
    simp only [List.map_cons, List.map_nil, List.sum_cons, List.sum_nil]
    rw [priceOfReg_kinsert_self, hcongr a]
    have := hRes a
    rw [this]
    rfl
  · rw [fupd_ne _ _ ha, fupd_ne _ _ ha, hcongr a]
    exact hRes a

lemma resInv_commit_transfer (cfg : Config) (s : KState) (frm dest : Nat)
    (dna : List Nat) (kitty : Kitty) (from_owned : List (List Nat))
    (hOwn : OwnInv cfg s) (hRes : ResInv s)
    (hk : kget s.kitties dna = some kitty)
    (howner : kitty.owner = frm)
    (hne : ¬ frm = dest)
    (hrm : removeKitty (s.kittiesOwned frm) dna = some from_owned) :
    ResInv { s with
      kitties := kinsert dna { kitty with owner := dest } s.kitties,
      kittiesOwned := fupd (fupd s.kittiesOwned dest
        (s.kittiesOwned dest ++ [dna])) frm from_owned,
      reserved := fupd (fupd s.reserved dest (s.reserved dest + kitty.price))
        frm (s.reserved frm - min kitty.price (s.reserved frm)),
      free := fupd (fupd s.free dest (s.free dest - kitty.price))
        frm (s.free frm + min kitty.price (s.reserved frm)) } := by
  have hdstsrc : ¬ dest = frm := fun hh => hne hh.symm
  have hmem : dna ∈ s.kittiesOwned frm := removeKitty_mem_self hrm
  have hple : kitty.price ≤ s.reserved frm := by
    rw [hRes frm]
    exact price_le_ownedPriceSum hk hmem
  have hmin : min kitty.price (s.reserved frm) = kitty.price :=
    Nat.min_eq_left hple
  have hprice : ∀ x, priceOfReg (kinsert dna { kitty with owner := dest }
      s.kitties) x = priceOfReg s.kitties x :=
    priceOfReg_kinsert_same_price s.kitties hk rfl
  have hcongr : ∀ l : List (List Nat), (l.map (priceOfReg (kinsert dna
      { kitty with owner := dest } s.kitties))).sum
      = (l.map (priceOfReg s.kitties)).sum := by
    intro l
    exact sum_map_congr _ _ _ (fun x _ => hprice x)
  have hpd : priceOfReg s.kitties dna = kitty.price := by simp [priceOfReg, hk]
  have hsum_rm : (from_owned.map (priceOfReg s.kitties)).sum + kitty.price
      = ((s.kittiesOwned frm).map (priceOfReg s.kitties)).sum := by
    have := removeKitty_map_sum (priceOfReg s.kitties) hrm
    rw [hpd] at this
    exact this
  intro a
  show fupd (fupd s.reserved dest (s.reserved dest + kitty.price)) frm
      (s.reserved frm - min kitty.price (s.reserved frm)) a
    = ((fupd (fupd s.kittiesOwned dest (s.kittiesOwned dest ++ [dna])) frm
        from_owned a).map (priceOfReg (kinsert dna { kitty with owner := dest }
        s.kitties))).sum
  by_cases ha1 : a = frm
  · subst ha1
    rw [fupd_self, fupd_self, hcongr]
    rw [hmin]
    have hr := hRes a
    unfold ownedPriceSum at hr
    omega
  · by_cases ha2 : a = dest
    · subst ha2
      rw [fupd_ne _ _ ha1, fupd_self, fupd_ne _ _ ha1, fupd_self]
      rw [List.map_append, List.sum_append, hcongr]
      simp only [List.map_cons, List.map_nil, List.sum_cons, List.sum_nil]
      rw [hprice dna, hpd]
      have hr := hRes a
      unfold ownedPriceSum at hr
      omega
    · rw [fupd_ne _ _ ha1, fupd_ne _ _ ha2, fupd_ne _ _ ha1, fupd_ne _ _ ha2,
        hcongr]
      exact hRes a

/-- Reservation consistency is preserved by successful mints, breeds and
transfers (pricing and purchase excluded). -/
lemma resInv_step {cfg : Config} {op : Op} {s s' : KState}
    (hMBT : op.isMBT = true) (h : applyOp cfg op s = .ok s')
    (hOwn : OwnInv cfg s) (hRes : ResInv s) : ResInv s' := by
  cases op with
  | create o dna =>
    simp only [applyOp] at h
    obtain ⟨hfresh, -, -, -, -, rfl⟩ := create_ok_shape h
    exact resInv_commit_mint cfg s o dna hOwn hRes hfresh
  | breed o p1 p2 sel =>
    simp only [applyOp] at h
    obtain ⟨k1, k2, -, -, -, -, -, -, -, hfresh, -, -, rfl⟩ := breed_ok_shape h
    exact resInv_commit_mint cfg s o (combine k1.dna k2.dna sel) hOwn hRes hfresh
  | transfer frm dest dna =>
    simp only [applyOp] at h
    obtain ⟨kitty, from_owned, hne, hk, howner, -, -, hrm, rfl⟩ :=
      transfer_ok_shape h
    exact resInv_commit_transfer cfg s frm dest dna kitty from_owned hOwn hRes
      hk howner hne hrm
  | setPrice sender kitty_id p =>
    simp [Op.isMBT] at hMBT
  | buy buyer kitty_id bid =>
    simp [Op.isMBT] at hMBT

lemma ownInv_init (cfg : Config) (free0 : Nat → Nat) :
    OwnInv cfg (initState free0) := by
  refine ⟨?_, ?_, ?_, ?_⟩
  · intro a
    simp [initState]
  · intro a d hd
    simp [initState] at hd
  · intro d k hk
    simp [initState, kget] at hk
  · intro a b d hda hdb
    simp [initState] at hda

lemma resInv_init (free0 : Nat → Nat) : ResInv (initState free0) := by
  intro a
  simp [initState, ownedPriceSum]

/-- Along mint/breed/transfer-only executions both the ownership-index and
the reservation-consistency invariants hold. -/
lemma reachableMBT_inv {cfg : Config} {s : KState} (h : ReachableMBT cfg s) :
    OwnInv cfg s ∧ ResInv s := by
  induction h with
  | init free0 => exact ⟨ownInv_init cfg free0, resInv_init free0⟩
  | step op hr hmbt hok ih => exact ⟨ownInv_step hok ih.1,
      resInv_step hmbt hok ih.1 ih.2⟩

/-! The global-counter invariant. -/

/-- The registry association list has pairwise distinct keys. -/
def NodupKeys (reg : List (List Nat × Kitty)) : Prop :=
  (reg.map Prod.fst).Nodup

/-- Counter consistency: distinct registry keys, counter equal to the
number of live registry records, counter within `MaxKittiesCount`. -/
def CountInv (cfg : Config) (s : KState) : Prop :=
  NodupKeys s.kitties ∧ s.kittiesCount = s.kitties.length ∧
  s.kittiesCount ≤ cfg.maxKittiesCount

lemma countInv_step {cfg : Config} {op : Op} {s s' : KState}
    (h : applyOp cfg op s = .ok s') (hInv : CountInv cfg s) : CountInv cfg s' := by
  obtain ⟨hnd, hlen, hmax⟩ := hInv
  cases op with
  | create o dna =>
    simp only [applyOp] at h
    obtain ⟨hfresh, -, -, hcap, -, rfl⟩ := create_ok_shape h
    refine ⟨nodupKeys_kinsert _ _ _ hnd, ?_, hcap⟩
    show s.kittiesCount + 1 = (kinsert dna ⟨dna, cfg.kittyPrice, o⟩ s.kitties).length
    rw [length_kinsert_fresh _ _ _ hfresh, hlen]
  | breed o p1 p2 sel =>
    simp only [applyOp] at h
    obtain ⟨k1, k2, -, -, -, -, -, -, hcap, hfresh, -, -, rfl⟩ := breed_ok_shape h
    refine ⟨nodupKeys_kinsert _ _ _ hnd, ?_, hcap⟩
    show s.kittiesCount + 1 = (kinsert (combine k1.dna k2.dna sel) _ s.kitties).length
    rw [length_kinsert_fresh _ _ _ hfresh, hlen]
  | transfer frm dest dna =>
    simp only [applyOp] at h
    obtain ⟨kitty, from_owned, -, hk, -, -, -, -, rfl⟩ := transfer_ok_shape h
    refine ⟨nodupKeys_kinsert _ _ _ hnd, ?_, hmax⟩
    show s.kittiesCount = (kinsert dna { kitty with owner := dest } s.kitties).length
    rw [length_kinsert_existing dna _ kitty s.kitties hnd hk, hlen]
  | setPrice sender kitty_id p =>
    simp only [applyOp] at h
    obtain ⟨kitty, hk, -, rfl⟩ := set_price_ok_shape h
    refine ⟨nodupKeys_kinsert _ _ _ hnd, ?_, hmax⟩
    show s.kittiesCount = (kinsert kitty_id { kitty with price := p } s.kitties).length
    rw [length_kinsert_existing kitty_id _ kitty s.kitties hnd hk, hlen]
  | buy buyer kitty_id bid =>
    simp only [applyOp] at h
    obtain ⟨kitty, seller_owned, hk, -, -, -, rfl⟩ := buy_ok_shape h
    refine ⟨nodupKeys_kinsert _ _ _ hnd, ?_, hmax⟩
    show s.kittiesCount = (kinsert kitty_id { kitty with owner := buyer } s.kitties).length
    rw [length_kinsert_existing kitty_id _ kitty s.kitties hnd hk, hlen]

lemma count_monotone {cfg : Config} {op : Op} {s s' : KState}
    (h : applyOp cfg op s = .ok s') : s.kittiesCount ≤ s'.kittiesCount := by
  cases op with
  | create o dna =>
    simp only [applyOp] at h
    obtain ⟨-, -, -, -, -, rfl⟩ := create_ok_shape h
    exact Nat.le_succ _
  | breed o p1 p2 sel =>
    simp only [applyOp] at h
    obtain ⟨k1, k2, -, -, -, -, -, -, -, -, -, -, rfl⟩ := breed_ok_shape h
    exact Nat.le_succ _
  | transfer frm dest dna =>
    simp only [applyOp] at h
    obtain ⟨kitty, from_owned, -, -, -, -, -, -, rfl⟩ := transfer_ok_shape h
    exact Nat.le_refl _
  | setPrice sender kitty_id p =>
    simp only [applyOp] at h
    obtain ⟨kitty, -, -, rfl⟩ := set_price_ok_shape h
    exact Nat.le_refl _
  | buy buyer kitty_id bid =>
    simp only [applyOp] at h
    obtain ⟨kitty, seller_owned, -, -, -, -, rfl⟩ := buy_ok_shape h
    exact Nat.le_refl _

lemma reachable_countInv {cfg : Config} {s : KState} (h : Reachable cfg s) :
    CountInv cfg s := by
  induction h with
  | init free0 => exact ⟨List.nodup_nil, rfl, Nat.zero_le _⟩
  | step op hr hok ih => exact countInv_step hok ih

/-! Concrete fixtures for witnesses and counterexamples. -/

/-- Mock-style configuration: unit price 50, at most 5 owned, at most 10 total. -/
def cfg0 : Config := ⟨50, 5, 10⟩

/-- Configuration whose total capacity is zero. -/
def cfgZero : Config := ⟨50, 5, 0⟩

/-- Every account starts with 100 free balance. -/
def f100 : Nat → Nat := fun _ => 100

/-- Genesis state over `f100`. -/
def s0 : KState := initState f100

/-- A concrete dna value. -/
def d0 : List Nat := [0, 1]

/-- The state resulting from a dispatch, the pre-state when it failed. -/
def applyOpD (cfg : Config) (op : Op) (s : KState) : KState :=
  match applyOp cfg op s with
  | .ok s' => s'
  | .error _ => s

/-- The state the host commits: the new state on success, the unchanged
pre-state on error (transactional dispatch). -/
def commitOrKeep (s : KState) : Except KErr KState → KState
  | .ok s' => s'
  | .error _ => s

/-! Claim theorems. -/

/-- C1 as stated is false: mint an asset at price 50 (reserving 50), then
successfully `set_price` it to 100; afterwards the owner's reserved balance
is 50 while the sum of prices over its assets is 100. -/
theorem C1_counterexample :
    (Except.map (fun s => (s.reserved 1, ownedPriceSum s 1))
      ((create_kitty cfg0 1 d0 s0).bind (set_price cfg0 1 d0 100)))
      = .ok (50, 100) ∧ (50 : Nat) ≠ 100 :=
  ⟨rfl, by decide⟩

/-- C1 amended: after any sequence of successful mint, breed and transfer
operations from genesis, every account's reserved balance equals the sum of
`price` over the assets it currently owns (`set_price` and `buy_kitty`
excluded: the former changes a price without adjusting the reservation,
the latter moves ownership without touching the ledger). -/
theorem C1_amended (cfg : Config) (s : KState) (h : ReachableMBT cfg s) :
    ∀ a, s.reserved a = ownedPriceSum s a :=
  (reachableMBT_inv h).2

/-- Witness for `C1_amended` after one concrete mint from genesis, for the
minting account. -/
theorem C1_amended_witness :
    (applyOpD cfg0 (Op.create 1 d0) s0).reserved 1
      = ownedPriceSum (applyOpD cfg0 (Op.create 1 d0) s0) 1 :=
  C1_amended cfg0 (applyOpD cfg0 (Op.create 1 d0) s0)
    (ReachableMBT.step (Op.create 1 d0) (ReachableMBT.init f100) rfl rfl) 1

/-- C3 as stated is false: with total capacity 0 and an empty registry,
breeding two absent parents fails with `KittiesCountOverFlow`, not
`KittyNotExists` — the counter check precedes the parent lookups. -/
theorem C3_counterexample :
    breed_kitty cfgZero 1 [1] [2] [3] s0 = .error .KittiesCountOverFlow ∧
    kget s0.kitties [1] = none ∧
    KErr.KittiesCountOverFlow ≠ KErr.KittyNotExists :=
  ⟨rfl, rfl, by decide⟩

/-- C3 amended: in `breed_kitty` the total-capacity check runs before the
parent lookups; whenever the incremented counter passes both counter checks
and either parent is absent from the registry, breeding fails with
`KittyNotExists`. -/
theorem C3_amended (cfg : Config) (o : Nat) (p1 p2 sel : List Nat) (s : KState)
    (hov : s.kittiesCount + 1 < 2 ^ 32)
    (hcap : s.kittiesCount + 1 ≤ cfg.maxKittiesCount)
    (habs : kget s.kitties p1 = none ∨ kget s.kitties p2 = none) :
    breed_kitty cfg o p1 p2 sel s = .error .KittyNotExists := by
  simp only [breed_kitty]
  rw [if_neg (by omega : ¬ 2 ^ 32 ≤ s.kittiesCount + 1)]
  rw [if_neg (not_not.mpr hcap)]
  cases hp1 : kget s.kitties p1 with
  | none => simp [hp1]
  | some k1 =>
    rcases habs with h1 | h2
    · rw [hp1] at h1
      exact Option.noConfusion h1
    · simp [hp1, h2]

/-- Witness for `C3_amended` at a concrete state and inputs. -/
theorem C3_amended_witness :
    breed_kitty cfg0 1 [1] [2] [3] s0 = .error .KittyNotExists :=
  C3_amended cfg0 1 [1] [2] [3] s0 (by decide) (by decide) (Or.inl rfl)

/-- C4: transfer is a no-op on failure — whenever the dispatched
`transfer_kitty` returns an error, the committed state has the sender's and
recipient's ownership lists, the registry record of the asset, and all
reserved balances unchanged (the host reverts the body's writes on error;
within the body, `transfer_kitty_raw` keeps the source's write order). -/
theorem C4_transfer_noop_on_failure (cfg : Config) (frm dest : Nat)
    (dna : List Nat) (s : KState) (e : KErr)
    (h : transfer_kitty cfg frm dest dna s = .error e) :
    (commitOrKeep s (transfer_kitty cfg frm dest dna s)).kittiesOwned frm
        = s.kittiesOwned frm ∧
    (commitOrKeep s (transfer_kitty cfg frm dest dna s)).kittiesOwned dest
        = s.kittiesOwned dest ∧
    kget (commitOrKeep s (transfer_kitty cfg frm dest dna s)).kitties dna
        = kget s.kitties dna ∧
    (commitOrKeep s (transfer_kitty cfg frm dest dna s)).reserved
        = s.reserved := by
  rw [h]
  exact ⟨rfl, rfl, rfl, rfl⟩

/-- Witness for `C4_transfer_noop_on_failure`: transferring an absent asset
fails and commits no change. -/
theorem C4_witness :
    (commitOrKeep s0 (transfer_kitty cfg0 1 2 d0 s0)).kittiesOwned 1
        = s0.kittiesOwned 1 ∧
    (commitOrKeep s0 (transfer_kitty cfg0 1 2 d0 s0)).kittiesOwned 2
        = s0.kittiesOwned 2 ∧
    kget (commitOrKeep s0 (transfer_kitty cfg0 1 2 d0 s0)).kitties d0
        = kget s0.kitties d0 ∧
    (commitOrKeep s0 (transfer_kitty cfg0 1 2 d0 s0)).reserved = s0.reserved :=
  C4_transfer_noop_on_failure cfg0 1 2 d0 s0 KErr.KittyNotExists rfl

/-- C5: a successful mint produces an identifier that was absent from the
registry before the call and present afterwards, owned by the caller at the
configured unit price, with exactly that amount newly reserved from the
caller. -/
theorem C5_mint_postcondition (cfg : Config) (o : Nat) (dna : List Nat)
    (s s' : KState) (h : create_kitty cfg o dna s = .ok s') :
    kget s.kitties dna = none ∧
    kget s'.kitties dna = some ⟨dna, cfg.kittyPrice, o⟩ ∧
    s'.reserved o = s.reserved o + cfg.kittyPrice := by
  obtain ⟨hfresh, -, -, -, -, rfl⟩ := create_ok_shape h
  exact ⟨hfresh, kget_kinsert_self _ _ _, fupd_self _ _ _⟩

/-- Witness for `C5_mint_postcondition` at a concrete mint from genesis. -/
theorem C5_witness :
    kget s0.kitties d0 = none ∧
    kget (applyOpD cfg0 (Op.create 1 d0) s0).kitties d0
      = some ⟨d0, cfg0.kittyPrice, 1⟩ ∧
    (applyOpD cfg0 (Op.create 1 d0) s0).reserved 1
      = s0.reserved 1 + cfg0.kittyPrice :=
  C5_mint_postcondition cfg0 1 d0 s0 (applyOpD cfg0 (Op.create 1 d0) s0) rfl

/-- C6: ownership-index consistency (bounded lists, listed dna resolving to
a matching registry record, each record's dna listed exactly once for its
owner, no dna listed for two accounts) is preserved by every operation. -/
theorem C6_ownership_invariant_preserved (cfg : Config) (op : Op)
    (s s' : KState) (h : applyOp cfg op s = .ok s') (hInv : OwnInv cfg s) :
    OwnInv cfg s' :=
  ownInv_step h hInv

/-- Witness for `C6_ownership_invariant_preserved` after one concrete mint. -/
theorem C6_witness : OwnInv cfg0 (applyOpD cfg0 (Op.create 1 d0) s0) :=
  C6_ownership_invariant_preserved cfg0 (Op.create 1 d0) s0
    (applyOpD cfg0 (Op.create 1 d0) s0) rfl (ownInv_init cfg0 f100)

/-- C7: in every reachable state the counter equals the number of live
registry records and never exceeds `MaxKittiesCount`, and every successful
operation leaves the counter non-decreasing. -/
theorem C7_counter (cfg : Config) (s s' : KState) (op : Op) :
    (Reachable cfg s → s.kittiesCount = s.kitties.length ∧
      s.kittiesCount ≤ cfg.maxKittiesCount) ∧
    (applyOp cfg op s = .ok s' → s.kittiesCount ≤ s'.kittiesCount) := by
  constructor
  · intro hr
    obtain ⟨-, h1, h2⟩ := reachable_countInv hr
    exact ⟨h1, h2⟩
  · intro hok
    exact count_monotone hok

/-- Witness for `C7_counter` at genesis and one concrete mint. -/
theorem C7_witness :
    ((s0.kittiesCount = s0.kitties.length ∧
        s0.kittiesCount ≤ cfg0.maxKittiesCount) ∧
      s0.kittiesCount ≤ (applyOpD cfg0 (Op.create 1 d0) s0).kittiesCount) :=
  ⟨(C7_counter cfg0 s0 (applyOpD cfg0 (Op.create 1 d0) s0)
      (Op.create 1 d0)).1 (Reachable.init f100),
    (C7_counter cfg0 s0 (applyOpD cfg0 (Op.create 1 d0) s0)
      (Op.create 1 d0)).2 rfl⟩

/-- C9: in a state satisfying the ownership-index invariant, the only way
`transfer_kitty` returns `KittyNotExists` is that the asset is absent from
the registry — the sender-side removal after the existence and ownership
checks can never fail, so that error branch is unreachable. -/
theorem C9_transfer_removal_never_fails (cfg : Config) (frm dest : Nat)
    (dna : List Nat) (s : KState) (hInv : OwnInv cfg s)
    (h : transfer_kitty cfg frm dest dna s = .error .KittyNotExists) :
    kget s.kitties dna = none := by
  obtain ⟨-, -, hC, -⟩ := hInv
  simp only [transfer_kitty, transfer_kitty_raw] at h
  by_cases h1 : frm = dest
  · rw [if_pos h1] at h
    simp at h
  rw [if_neg h1] at h
  cases hk : kget s.kitties dna with
  | none => rfl
  | some kitty =>
  exfalso
  simp only [hk] at h
  by_cases h2 : ¬ kitty.owner = frm
  · rw [if_pos h2] at h
    simp at h
  rw [if_neg h2] at h
  by_cases h3 : ¬ can_reserve s dest kitty.price
  · rw [if_pos h3] at h
    simp at h
  rw [if_neg h3] at h
  by_cases h4 : ¬ (s.kittiesOwned dest).length < cfg.maxKittiesOwned
  · rw [if_pos h4] at h
    simp at h
  rw [if_neg h4] at h
  by_cases h5 : ¬ kitty.price ≤ s.free dest
  · rw [if_pos h5] at h
    simp at h
  rw [if_neg h5] at h
  cases hr : removeKitty (s.kittiesOwned frm) dna with
  | some from_owned =>
    simp only [hr] at h
    exact Except.noConfusion h
  | none =>
    have howner : kitty.owner = frm := not_not.mp h2
    have hcnt := hC dna kitty hk
    rw [howner] at hcnt
    have hmem : dna ∈ s.kittiesOwned frm := mem_of_countD_pos (by omega)
    obtain ⟨l', hl'⟩ := removeKitty_isSome_of_mem hmem
    rw [hl'] at hr
    exact Option.noConfusion hr

/-- Witness for `C9_transfer_removal_never_fails` at a concrete failing
transfer from a consistent state. -/
theorem C9_witness :
    transfer_kitty cfg0 1 2 d0 s0 = .error .KittyNotExists ∧
    kget s0.kitties d0 = none :=
  ⟨rfl, C9_transfer_removal_never_fails cfg0 1 2 d0 s0
    (ownInv_init cfg0 f100) rfl⟩

/-- C10: the `bid_price` argument of `buy_kitty` has no influence — any two
bids produce identical results and final states, and the errors
`BidPriceTooLow` and `NotForSale` are never returned (the payment and
price-threshold logic is commented out in the source). -/
theorem C10_bid_price_ignored (cfg : Config) (buyer : Nat)
    (kitty_id : List Nat) (bid1 bid2 : Nat) (s : KState) :
    buy_kitty cfg buyer kitty_id bid1 s = buy_kitty cfg buyer kitty_id bid2 s ∧
    (∀ e, buy_kitty cfg buyer kitty_id bid1 s = .error e →
      ¬ e = .BidPriceTooLow ∧ ¬ e = .NotForSale) := by
  constructor
  · rfl
  · intro e he
    simp only [buy_kitty, do_buy_kitty] at he
    cases hk : kget s.kitties kitty_id with
    | none =>
      simp only [hk] at he
      injection he with he
      subst he
      exact ⟨by decide, by decide⟩
    | some kitty =>
    simp only [hk] at he
    by_cases h1 : kitty.owner = buyer
    · rw [if_pos h1] at he
      injection he with he
      subst he
      exact ⟨by decide, by decide⟩
    rw [if_neg h1] at he
    cases hr : removeKitty (s.kittiesOwned kitty.owner) kitty_id with
    | none =>
      simp only [hr] at he
      injection he with he
      subst he
      exact ⟨by decide, by decide⟩
    | some so =>
    simp only [hr] at he
    by_cases h2 : ¬ (s.kittiesOwned buyer).length < cfg.maxKittiesOwned
    · rw [if_pos h2] at he
      injection he with he
      subst he
      exact ⟨by decide, by decide⟩
    rw [if_neg h2] at he
    exact Except.noConfusion he

/-- Witness for `C10_bid_price_ignored` at concrete bids 5 and 99. -/
theorem C10_witness :
    (buy_kitty cfg0 1 d0 5 s0 = buy_kitty cfg0 1 d0 99 s0) ∧
    (¬ KErr.KittyNotExists = KErr.BidPriceTooLow ∧
      ¬ KErr.KittyNotExists = KErr.NotForSale) :=
  ⟨(C10_bid_price_ignored cfg0 1 d0 5 99 s0).1,
    (C10_bid_price_ignored cfg0 1 d0 5 99 s0).2 KErr.KittyNotExists rfl⟩

end KittiesPallet
